import Mathlib

/-!
Shallow embedding of `pgportfolio/nnagent/replay_buffer.py` (class `PGPBuffer`).

Modelling conventions:
* Python/numpy floating-point fractions are modelled exactly by `ℚ`.
* numpy `astype(int)` truncates toward zero, modelled by `Int.tdiv` on the
  rational's numerator and denominator.
* Python slice endpoints (including negative endpoints, as produced by
  `np.split` on negative split indices) are modelled by `sliceIndex`.
* Tensors are modelled as total functions from indices to `ℚ` together with
  the relevant extent fields; numpy negative indexing into the PVM
  (`pvm[index - 1]` at index 0 reads the last row) is modelled by `pvmRead`
  via the Euclidean remainder.
* numpy randomness (`np.random.geometric`) is modelled by an explicit finite
  stream of drawn trial counts; the rejection loop consumes the stream and
  returns `none` when the stream is exhausted (a finite prefix of the real,
  almost-surely-terminating draw sequence).
* Operations that raise in Python (`IndexError` on an empty `train_idx`,
  `RuntimeError` from `torch.stack` on ragged window slices or from
  broadcasting incompatible shapes in the `y` division) are modelled by
  `Option`/explicit error results at exactly the places the source raises.
-/

namespace PGP

/-- numpy `astype(int)`: truncation toward zero of an exact rational. -/
def truncToInt (q : ℚ) : ℤ :=
  Int.tdiv q.num q.den

/-- Python slice-endpoint normalisation for a sequence of length `n`:
negative endpoints count from the end, and endpoints are clamped to `[0, n]`. -/
def sliceIndex (n : ℕ) (i : ℤ) : ℕ :=
  if i < 0 then ((n : ℤ) + i).toNat else min i.toNat n

/-- Embedding of `np.split(l, [i, j])`: the three consecutive Python slices
`l[:i]`, `l[i:j]`, `l[j:]`. -/
def pySplit3 (l : List ℕ) (i j : ℤ) : List ℕ × List ℕ × List ℕ :=
  (l.take (sliceIndex l.length i),
   (l.drop (sliceIndex l.length i)).take (sliceIndex l.length j - sliceIndex l.length i),
   l.drop (sliceIndex l.length j))

/-- Python `l[:-k]` for `k ≥ 1`: drop the last `k` entries. -/
def truncateTail (l : List ℕ) (k : ℕ) : List ℕ :=
  l.take (l.length - k)

/-- Embedding of `PGPBuffer._divide_data(period_num, window_size, test_portion, val_portion,
portion_reversed)`: split `np.arange(period_num)` at the cumulative-portion
points (cast to int), in order (train, test, val) or (val, test, train)
depending on `portion_reversed`, then cut the trailing
`window_size + 1` indices off every range. -/
def divideData (periodNum windowSize : ℕ) (testPortion valPortion : ℚ)
    (portionReversed : Bool) : List ℕ × List ℕ × List ℕ :=
  if portionReversed then
    match pySplit3 (List.range periodNum)
        (truncToInt (valPortion * (periodNum : ℚ)))
        (truncToInt ((valPortion + testPortion) * (periodNum : ℚ))) with
    | (valIdx, testIdx, trainIdx) =>
      (truncateTail trainIdx (windowSize + 1),
       truncateTail testIdx (windowSize + 1),
       truncateTail valIdx (windowSize + 1))
  else
    match pySplit3 (List.range periodNum)
        (truncToInt ((1 - testPortion - valPortion) * (periodNum : ℚ)))
        (truncToInt (((1 - testPortion - valPortion) + testPortion) * (periodNum : ℚ))) with
    | (trainIdx, testIdx, valIdx) =>
      (truncateTail trainIdx (windowSize + 1),
       truncateTail testIdx (windowSize + 1),
       truncateTail valIdx (windowSize + 1))

/-- The state of a `PGPBuffer` instance.  `features f c t` is
`coin_features[f, c, t]` (shape `[featureNum, coinNum, periodNum]`),
`pvm t c` is the portfolio-vector memory (shape `[pvmRows, coinNum]`). -/
structure PGPBuffer where
  featureNum : ℕ
  coinNum : ℕ
  periodNum : ℕ
  features : ℕ → ℕ → ℕ → ℚ
  pvmRows : ℕ
  pvm : ℕ → ℕ → ℚ
  batchSize : ℕ
  windowSize : ℕ
  sampleBias : ℚ
  portionReversed : Bool
  isUnordered : Bool
  trainIdx : List ℕ
  testIdx : List ℕ
  valIdx : List ℕ
  newExpCount : ℕ

/-- Embedding of `PGPBuffer.__init__`: store the features, initialise the PVM to the
uniform allocation `1 / coin_num` over `period_num` rows, and partition the
period indices with `_divide_data`. -/
def mkBuffer (featureNum coinNum periodNum : ℕ) (features : ℕ → ℕ → ℕ → ℚ)
    (batchSize windowSize : ℕ) (testPortion validationPortion sampleBias : ℚ)
    (portionReversed isUnordered : Bool) : PGPBuffer :=
  match divideData periodNum windowSize testPortion validationPortion portionReversed with
  | (trainIdx, testIdx, valIdx) =>
    { featureNum := featureNum
      coinNum := coinNum
      periodNum := periodNum
      features := features
      pvmRows := periodNum
      pvm := fun _ _ => 1 / (coinNum : ℚ)
      batchSize := batchSize
      windowSize := windowSize
      sampleBias := sampleBias
      portionReversed := portionReversed
      isUnordered := isUnordered
      trainIdx := trainIdx
      testIdx := testIdx
      valIdx := valIdx
      newExpCount := 0 }

/-- Embedding of `PGPBuffer.train_num`. -/
def PGPBuffer.train_num (b : PGPBuffer) : ℕ :=
  b.trainIdx.length

/-- Embedding of `PGPBuffer.test_num`. -/
def PGPBuffer.test_num (b : PGPBuffer) : ℕ :=
  b.testIdx.length

/-- Embedding of `PGPBuffer.val_num`. -/
def PGPBuffer.val_num (b : PGPBuffer) : ℕ :=
  b.valIdx.length

/-- numpy row read `pvm[i, :]` allowing a negative row index
(numpy wraps `-rows ≤ i < 0` to `rows + i`), via the Euclidean remainder. -/
def pvmRead (rows : ℕ) (pvm : ℕ → ℕ → ℚ) (i : ℤ) (c : ℕ) : ℚ :=
  pvm ((i % (rows : ℤ)).toNat) c

/-- Length of the Python slice `features[:, :, idx : idx + windowSize + 1]`
along time, for a time extent of `periodNum`. -/
def sliceLen (periodNum windowSize idx : ℕ) : ℕ :=
  min (windowSize + 1) (periodNum - idx)

/-- Position of the LAST occurrence of `r` in `l`, if any.  numpy fancy
assignment `pvm[index, :] = w` leaves, at a repeated row index, the value
written for its last position in `index`. -/
def lastPos (l : List ℕ) (r : ℕ) : Option ℕ :=
  match l with
  | [] => none
  | x :: xs =>
    match lastPos xs r with
    | some p => some (p + 1)
    | none => if x = r then some 0 else none

/-- The dictionary returned by `PGPBuffer._pack_samples`:
`X` is `batch[:, :, :, :-1]` (indices sample, feature, coin, time-in-window),
`y` is the broadcast quotient `batch[:, :, :, -1] / batch[:, 0, :, -2]`
(the `squeeze(-1)` only reshapes and is not modelled),
`last_w` is `pvm[index - 1, :]`, and
`setw` is the write-back closure, given as the map from the weights
argument `w` to the updated PVM. -/
structure PackedBatch where
  X : ℕ → ℕ → ℕ → ℕ → ℚ
  y : ℕ → ℕ → ℕ → ℚ
  last_w : ℕ → ℕ → ℚ
  setw : (ℕ → ℕ → ℚ) → ℕ → ℕ → ℚ

/-- Embedding of `PGPBuffer._pack_samples(index)`.  Returns `none` exactly where the
source raises: an empty index list (`t.stack` of no tensors), ragged or
too-short window slices (`t.stack` shape mismatch, or the `[-2]` time index
out of range), and a broadcast-incompatible `y` division
(`[N, F, C] / [N, C]` broadcasts only when `F = N`, `F = 1` or `N = 1`).
The broadcast quotient `y s j c` divides the last-step entry of sample `s`
(channel `j`, or channel 0 when `F = 1`) by the second-to-last-step
channel-0 entry of sample `j` (or sample 0 when `N = 1`). -/
def packSamples (b : PGPBuffer) (index : List ℕ) : Option PackedBatch :=
  if index ≠ [] ∧
      (∀ i ∈ index, sliceLen b.periodNum b.windowSize i
        = sliceLen b.periodNum b.windowSize (index.headD 0)) ∧
      2 ≤ sliceLen b.periodNum b.windowSize (index.headD 0) ∧
      (b.featureNum = index.length ∨ b.featureNum = 1 ∨ index.length = 1) then
    some
      { X := fun s f c tt => b.features f c (index.getD s 0 + tt)
        y := fun s j c =>
          b.features (if b.featureNum = 1 then 0 else j) c
            (index.getD s 0 + sliceLen b.periodNum b.windowSize (index.headD 0) - 1) /
          b.features 0 c
            (index.getD (if index.length = 1 then 0 else j) 0
              + sliceLen b.periodNum b.windowSize (index.headD 0) - 2)
        last_w := fun s c => pvmRead b.pvmRows b.pvm ((index.getD s 0 : ℤ) - 1) c
        setw := fun w r c =>
          match lastPos index r with
          | some p => w p c
          | none => b.pvm r c }
  else none

/-- Embedding of `PGPBuffer.get_training_set`. -/
def getTrainingSet (b : PGPBuffer) : Option PackedBatch :=
  packSamples b b.trainIdx

/-- Embedding of `PGPBuffer.get_test_set`. -/
def getTestSet (b : PGPBuffer) : Option PackedBatch :=
  packSamples b b.testIdx

/-- Embedding of `PGPBuffer.get_val_set`. -/
def getValSet (b : PGPBuffer) : Option PackedBatch :=
  packSamples b b.valIdx

/-- Embedding of `PGPBuffer._sample_geometric(start, end, bias)`: repeatedly draw a
geometric trial count `ran` and redraw while `ran > end - start`; on
acceptance return `end - ran`.  The stream of draws is explicit; `none`
means the finite modelled stream was exhausted before acceptance. -/
def sampleGeometric (draws : List ℕ) (start stop : ℕ) : Option (ℕ × List ℕ) :=
  match draws with
  | [] => none
  | ran :: rest =>
    if stop - start < ran then sampleGeometric rest start stop
    else some (stop - ran, rest)

/-- Drawing of `batch_size` independent geometric samples, consuming the draw stream. -/
def sampleMany (draws : List ℕ) (start stop count : ℕ) : Option (List ℕ) :=
  match count with
  | 0 => some []
  | count + 1 =>
    match sampleGeometric draws start stop with
    | none => none
    | some (r, rest) =>
      match sampleMany rest start stop count with
      | none => none
      | some l => some (r :: l)

/-- The `batch_idx` list built by `PGPBuffer.next_batch`:
`start_idx = train_idx[0]`, `end_idx = train_idx[-1]` (an empty train range
raises `IndexError`, modelled as `none`); unordered mode draws `batch_size`
independent samples, ordered mode draws one start and takes the contiguous
range of length `batch_size`. -/
def nextBatchIdx (b : PGPBuffer) (draws : List ℕ) : Option (List ℕ) :=
  match b.trainIdx.head?, b.trainIdx.getLast? with
  | some startIdx, some endIdx =>
    if b.isUnordered then
      sampleMany draws startIdx endIdx b.batchSize
    else
      match sampleGeometric draws startIdx endIdx with
      | none => none
      | some (batchStart, _) => some (List.range' batchStart b.batchSize)
  | _, _ => none

/-- Embedding of `PGPBuffer.next_batch`: build `batch_idx`, then `_pack_samples` it.
The packed index list is returned alongside the batch. -/
def nextBatch (b : PGPBuffer) (draws : List ℕ) : Option (List ℕ × PackedBatch) :=
  match nextBatchIdx b draws with
  | none => none
  | some idx =>
    match packSamples b idx with
    | none => none
    | some pb => some (idx, pb)

/-- Result of `PGPBuffer.append_experience`: `ok` on normal return, `err`
when the call raises; in both cases the buffer state after the call is
carried (Python mutations before a raise persist). -/
inductive AppendResult where
  | ok (b : PGPBuffer)
  | err (b : PGPBuffer)

/-- The buffer state after an `append_experience` call. -/
def AppendResult.state : AppendResult → PGPBuffer
  | .ok b => b
  | .err b => b

/-- Whether an `append_experience` call returned without raising. -/
def AppendResult.isOk : AppendResult → Bool
  | .ok _ => true
  | .err _ => false

/-- Result of the numpy in-place broadcast addition
`train_idx += list(range(lastIdx, lastIdx + n))` on the numpy array
`train_idx` (`lastIdx = train_idx[-1]`).  It is ELEMENTWISE addition, not
concatenation: when `n = 1` the single value `lastIdx` is broadcast onto
every entry, and when `n` equals the array length entry `i` gains
`lastIdx + i`; the length never changes.  (Any other `n` is a broadcast
`ValueError`, guarded at the call site.) -/
def broadcastAddRange (l : List ℕ) (lastIdx n : ℕ) : List ℕ :=
  if n = 1 then l.map fun x => x + lastIdx
  else l.mapIdx fun i x => x + (lastIdx + i)

/-- Embedding of `PGPBuffer.append_experience(coin_features, pvm)` with
`newTime = coin_features.shape[-1]` (same channel and coin counts as the
buffer, per the docstring, and `newTime` rows of new PVM weights):
raises (`err`, state unchanged) unless `portion_reversed`; then bumps
`_new_exp_count`; then evaluates `train_idx[-1]`, raising `IndexError`
(`err`, count already bumped) when the train range is empty; then performs
`train_idx += list(range(...))` — `train_idx` is a NUMPY ARRAY, so this is
in-place elementwise broadcast addition, which preserves the length and
raises a broadcast `ValueError` (`err`) unless `newTime` equals the array
length or 1; then performs `t.cat` on the features WITHOUT a `dim`
argument, i.e. along dim 0 (the feature-channel axis), which raises a
shape-mismatch error (`err`, with the elementwise train-range mutation in
place) unless the new time extent equals the stored one, and otherwise
doubles the channel count; finally concatenates the new PVM rows along
dim 0 (the time axis). -/
def appendExperience (b : PGPBuffer) (newFeatures : ℕ → ℕ → ℕ → ℚ)
    (newTime : ℕ) (newPvm : ℕ → ℕ → ℚ) : AppendResult :=
  if b.portionReversed = false then .err b
  else
    match b.trainIdx.getLast? with
    | none => .err { b with newExpCount := b.newExpCount + newTime }
    | some lastIdx =>
      if newTime = b.trainIdx.length ∨ newTime = 1 then
        if newTime = b.periodNum then
          .ok
            { b with
              newExpCount := b.newExpCount + newTime
              trainIdx := broadcastAddRange b.trainIdx lastIdx newTime
              featureNum := b.featureNum + b.featureNum
              features := fun f c t =>
                if f < b.featureNum then b.features f c t
                else newFeatures (f - b.featureNum) c t
              pvmRows := b.pvmRows + newTime
              pvm := fun r c =>
                if r < b.pvmRows then b.pvm r c else newPvm (r - b.pvmRows) c }
        else
          .err
            { b with
              newExpCount := b.newExpCount + newTime
              trainIdx := broadcastAddRange b.trainIdx lastIdx newTime }
      else .err { b with newExpCount := b.newExpCount + newTime }

end PGP

namespace PGP

/-! Helper lemmas. -/

lemma take_range' (s n m : ℕ) : (List.range' s n).take m = List.range' s (min m n) := by
  induction n generalizing s m with
  | zero => simp
  | succ n ih =>
    cases m with
    | zero => simp
    | succ m =>
      simp only [List.range'_succ, List.take_succ_cons, ih, Nat.succ_min_succ]

lemma drop_range' (s n m : ℕ) : (List.range' s n).drop m = List.range' (s + m) (n - m) := by
  induction n generalizing s m with
  | zero => simp
  | succ n ih =>
    cases m with
    | zero => simp
    | succ m =>
      simp only [List.range'_succ, List.drop_succ_cons, ih]
      congr 1 <;> omega

lemma truncToInt_eq_floor (q : ℚ) (hq : 0 ≤ q) : truncToInt q = ⌊q⌋ := by
  rw [truncToInt, Rat.floor_def]
  exact Int.tdiv_eq_ediv (Rat.num_nonneg.mpr hq) (by positivity)

lemma sliceIndex_of_nonneg (n : ℕ) (i : ℤ) (h0 : 0 ≤ i) (hn : i ≤ (n : ℤ)) :
    sliceIndex n i = i.toNat := by
  rw [sliceIndex, if_neg (by omega)]
  omega

lemma pySplit3_range (p : ℕ) (i j : ℤ) (h0 : 0 ≤ i) (hij : i ≤ j) (hjp : j ≤ (p : ℤ)) :
    pySplit3 (List.range p) i j =
      (List.range' 0 i.toNat,
       List.range' i.toNat (j.toNat - i.toNat),
       List.range' j.toNat (p - j.toNat)) := by
  have hi : sliceIndex (List.range p).length i = i.toNat := by
    rw [List.length_range]; exact sliceIndex_of_nonneg p i h0 (le_trans hij hjp)
  have hj : sliceIndex (List.range p).length j = j.toNat := by
    rw [List.length_range]; exact sliceIndex_of_nonneg p j (le_trans h0 hij) hjp
  have hjn : j.toNat ≤ p := by omega
  rw [pySplit3, hi, hj, List.range_eq_range']
  simp only [take_range', drop_range', Nat.zero_add]
  rw [Nat.min_eq_left (show i.toNat ≤ p by omega),
    Nat.min_eq_left (show j.toNat - i.toNat ≤ p - i.toNat by omega)]

/-- Elements of a tail-truncated list are elements of the list. -/
lemma mem_truncateTail {l : List ℕ} {k x : ℕ} (h : x ∈ truncateTail l k) : x ∈ l :=
  List.take_subset _ _ h

lemma truncateTail_length (l : List ℕ) (k : ℕ) :
    (truncateTail l k).length = l.length - k := by
  rw [truncateTail, List.length_take]
  omega

/-- Floor-based normal form of `_divide_data` for valid portions, forward
order: cut points `⌊(1 - t - v) * p⌋` and `⌊(1 - v) * p⌋`, ranges in order
(train, test, val), each tail-truncated by `windowSize + 1`. -/
lemma divideData_eq_false (p w : ℕ) (t v : ℚ) (ht : 0 ≤ t) (hv : 0 ≤ v)
    (htv : t + v ≤ 1) :
    divideData p w t v false =
      (truncateTail (List.range' 0 (⌊(1 - t - v) * (p : ℚ)⌋).toNat) (w + 1),
       truncateTail (List.range' (⌊(1 - t - v) * (p : ℚ)⌋).toNat
         ((⌊(1 - v) * (p : ℚ)⌋).toNat - (⌊(1 - t - v) * (p : ℚ)⌋).toNat)) (w + 1),
       truncateTail (List.range' (⌊(1 - v) * (p : ℚ)⌋).toNat
         (p - (⌊(1 - v) * (p : ℚ)⌋).toNat)) (w + 1)) := by
  have hq1 : (0 : ℚ) ≤ (1 - t - v) * (p : ℚ) := by
    apply mul_nonneg (by linarith) (by positivity)
  have hq2 : ((1 - t - v) + t) * (p : ℚ) = (1 - v) * (p : ℚ) := by ring
  have hle : (1 - t - v) * (p : ℚ) ≤ (1 - v) * (p : ℚ) := by
    apply mul_le_mul_of_nonneg_right (by linarith) (by positivity)
  have hple : (1 - v) * (p : ℚ) ≤ (p : ℚ) := by
    nlinarith [Rat.num_nonneg.mpr (show (0:ℚ) ≤ (p:ℚ) by positivity)]
  have h1 : truncToInt ((1 - t - v) * (p : ℚ)) = ⌊(1 - t - v) * (p : ℚ)⌋ :=
    truncToInt_eq_floor _ hq1
  have h2 : truncToInt (((1 - t - v) + t) * (p : ℚ)) = ⌊(1 - v) * (p : ℚ)⌋ := by
    rw [hq2]; exact truncToInt_eq_floor _ (le_trans hq1 hle)
  have hf0 : 0 ≤ ⌊(1 - t - v) * (p : ℚ)⌋ := Int.floor_nonneg.mpr hq1
  have hff : ⌊(1 - t - v) * (p : ℚ)⌋ ≤ ⌊(1 - v) * (p : ℚ)⌋ := Int.floor_le_floor hle
  have hfp : ⌊(1 - v) * (p : ℚ)⌋ ≤ (p : ℤ) := by
    have := Int.floor_le_floor hple
    rwa [Int.floor_natCast] at this
  rw [divideData]
  simp only [Bool.false_eq_true, if_false, h1, h2]
  rw [pySplit3_range p _ _ hf0 hff hfp]

/-- Floor-based normal form of `_divide_data` for valid portions, reversed
order: cut points `⌊v * p⌋` and `⌊(v + t) * p⌋`, ranges in order
(val, test, train) over increasing time, each tail-truncated by
`windowSize + 1`. -/
lemma divideData_eq_true (p w : ℕ) (t v : ℚ) (ht : 0 ≤ t) (hv : 0 ≤ v)
    (htv : t + v ≤ 1) :
    divideData p w t v true =
      (truncateTail (List.range' (⌊(v + t) * (p : ℚ)⌋).toNat
         (p - (⌊(v + t) * (p : ℚ)⌋).toNat)) (w + 1),
       truncateTail (List.range' (⌊v * (p : ℚ)⌋).toNat
         ((⌊(v + t) * (p : ℚ)⌋).toNat - (⌊v * (p : ℚ)⌋).toNat)) (w + 1),
       truncateTail (List.range' 0 (⌊v * (p : ℚ)⌋).toNat) (w + 1)) := by
  have hq1 : (0 : ℚ) ≤ v * (p : ℚ) := mul_nonneg hv (by positivity)
  have hle : v * (p : ℚ) ≤ (v + t) * (p : ℚ) :=
    mul_le_mul_of_nonneg_right (by linarith) (by positivity)
  have hple : (v + t) * (p : ℚ) ≤ (p : ℚ) := by
    nlinarith [show (0:ℚ) ≤ (p:ℚ) by positivity]
  have h1 : truncToInt (v * (p : ℚ)) = ⌊v * (p : ℚ)⌋ := truncToInt_eq_floor _ hq1
  have h2 : truncToInt ((v + t) * (p : ℚ)) = ⌊(v + t) * (p : ℚ)⌋ :=
    truncToInt_eq_floor _ (le_trans hq1 hle)
  have hf0 : 0 ≤ ⌊v * (p : ℚ)⌋ := Int.floor_nonneg.mpr hq1
  have hff : ⌊v * (p : ℚ)⌋ ≤ ⌊(v + t) * (p : ℚ)⌋ := Int.floor_le_floor hle
  have hfp : ⌊(v + t) * (p : ℚ)⌋ ≤ (p : ℤ) := by
    have := Int.floor_le_floor hple
    rwa [Int.floor_natCast] at this
  rw [divideData]
  simp only [if_true, h1, h2]
  rw [pySplit3_range p _ _ hf0 hff hfp]

lemma truncateTail_eq_nil {l : List ℕ} {k : ℕ} (h : l.length ≤ k) :
    truncateTail l k = [] := by
  rw [truncateTail, Nat.sub_eq_zero_of_le h, List.take_zero]

lemma mem_truncateTail_range' {s n k x : ℕ} (h : x ∈ truncateTail (List.range' s n) k) :
    s ≤ x ∧ x < s + n :=
  List.mem_range'_1.mp (mem_truncateTail h)

lemma pySplit3_subset (l : List ℕ) (i j : ℤ) :
    (pySplit3 l i j).1 ⊆ l ∧ (pySplit3 l i j).2.1 ⊆ l ∧ (pySplit3 l i j).2.2 ⊆ l := by
  refine ⟨List.take_subset _ _, ?_, List.drop_subset _ _⟩
  intro x hx
  exact List.drop_subset _ _ (List.take_subset _ _ hx)

lemma pySplit3_length_le (l : List ℕ) (i j : ℤ) :
    (pySplit3 l i j).1.length ≤ l.length ∧ (pySplit3 l i j).2.1.length ≤ l.length ∧
      (pySplit3 l i j).2.2.length ≤ l.length := by
  refine ⟨?_, ?_, ?_⟩ <;> simp [pySplit3, List.length_take, List.length_drop]

/-- Monotone floor cut points for portions `x ≤ y ≤ 1`, as naturals. -/
lemma floor_portion_facts (p : ℕ) (x y : ℚ) (hxy : x ≤ y) (hy1 : y ≤ 1) :
    (⌊x * (p : ℚ)⌋).toNat ≤ (⌊y * (p : ℚ)⌋).toNat ∧ (⌊y * (p : ℚ)⌋).toNat ≤ p := by
  have hp : (0 : ℚ) ≤ (p : ℚ) := by positivity
  have h1 : ⌊x * (p : ℚ)⌋ ≤ ⌊y * (p : ℚ)⌋ :=
    Int.floor_le_floor (mul_le_mul_of_nonneg_right hxy hp)
  have h2 : ⌊y * (p : ℚ)⌋ ≤ (p : ℤ) := by
    have := Int.floor_le_floor (show y * (p : ℚ) ≤ 1 * (p : ℚ) from
      mul_le_mul_of_nonneg_right hy1 hp)
    rw [one_mul, Int.floor_natCast] at this
    exact this
  omega

/-! Claim C3: split points, range order and truncation of `_divide_data`. -/

/-- C3 (confirmed, for valid portions `0 ≤ test`, `0 ≤ val`,
`test + val ≤ 1`): `_divide_data` cuts `np.arange(period_num)` at split
points `fraction * period_num` rounded down; with `reversed = false` the
ranges are (train, test, val) over increasing time with cut points
`⌊(1 - test - val) * p⌋` and `⌊(1 - val) * p⌋`, with `reversed = true` they
are (val, test, train) over increasing time with cut points `⌊val * p⌋`
and `⌊(val + test) * p⌋`; each of the three ranges then loses its last
`window_size + 1` indices. -/
theorem divideData_split_points (p w : ℕ) (t v : ℚ)
    (ht : 0 ≤ t) (hv : 0 ≤ v) (htv : t + v ≤ 1) :
    divideData p w t v false =
      (truncateTail (List.range' 0 (⌊(1 - t - v) * (p : ℚ)⌋).toNat) (w + 1),
       truncateTail (List.range' (⌊(1 - t - v) * (p : ℚ)⌋).toNat
         ((⌊(1 - v) * (p : ℚ)⌋).toNat - (⌊(1 - t - v) * (p : ℚ)⌋).toNat)) (w + 1),
       truncateTail (List.range' (⌊(1 - v) * (p : ℚ)⌋).toNat
         (p - (⌊(1 - v) * (p : ℚ)⌋).toNat)) (w + 1))
    ∧ divideData p w t v true =
      (truncateTail (List.range' (⌊(v + t) * (p : ℚ)⌋).toNat
         (p - (⌊(v + t) * (p : ℚ)⌋).toNat)) (w + 1),
       truncateTail (List.range' (⌊v * (p : ℚ)⌋).toNat
         ((⌊(v + t) * (p : ℚ)⌋).toNat - (⌊v * (p : ℚ)⌋).toNat)) (w + 1),
       truncateTail (List.range' 0 (⌊v * (p : ℚ)⌋).toNat) (w + 1)) :=
  ⟨divideData_eq_false p w t v ht hv htv, divideData_eq_true p w t v ht hv htv⟩

/-- Witness for C3 at `period_num = 10`, `window_size = 2`,
`test = val = 1/5`. -/
theorem divideData_split_points_witness :
    divideData 10 2 (1/5) (1/5) false =
      (truncateTail (List.range' 0 (⌊(1 - 1/5 - 1/5) * ((10 : ℕ) : ℚ)⌋).toNat) (2 + 1),
       truncateTail (List.range' (⌊(1 - 1/5 - 1/5) * ((10 : ℕ) : ℚ)⌋).toNat
         ((⌊(1 - 1/5) * ((10 : ℕ) : ℚ)⌋).toNat - (⌊(1 - 1/5 - 1/5) * ((10 : ℕ) : ℚ)⌋).toNat)) (2 + 1),
       truncateTail (List.range' (⌊(1 - 1/5) * ((10 : ℕ) : ℚ)⌋).toNat
         (10 - (⌊(1 - 1/5) * ((10 : ℕ) : ℚ)⌋).toNat)) (2 + 1))
    ∧ divideData 10 2 (1/5) (1/5) true =
      (truncateTail (List.range' (⌊(1/5 + 1/5) * ((10 : ℕ) : ℚ)⌋).toNat
         (10 - (⌊(1/5 + 1/5) * ((10 : ℕ) : ℚ)⌋).toNat)) (2 + 1),
       truncateTail (List.range' (⌊(1/5 : ℚ) * ((10 : ℕ) : ℚ)⌋).toNat
         ((⌊(1/5 + 1/5) * ((10 : ℕ) : ℚ)⌋).toNat - (⌊(1/5 : ℚ) * ((10 : ℕ) : ℚ)⌋).toNat)) (2 + 1),
       truncateTail (List.range' 0 (⌊(1/5 : ℚ) * ((10 : ℕ) : ℚ)⌋).toNat) (2 + 1)) :=
  divideData_split_points 10 2 (1/5) (1/5) (by norm_num) (by norm_num) (by norm_num)

/-! Claim C7: disjointness and total length of the three ranges. -/

/-- C7 (confirmed, for valid portions): for either value of the order flag,
the three ranges returned by `_divide_data` are pairwise disjoint, each has
(trivially nonnegative) natural length, and the lengths sum to at most
`period_num`. -/
theorem divideData_disjoint_bounded (p w : ℕ) (t v : ℚ) (rev : Bool)
    (ht : 0 ≤ t) (hv : 0 ≤ v) (htv : t + v ≤ 1) :
    (∀ x ∈ (divideData p w t v rev).1, x ∉ (divideData p w t v rev).2.1)
    ∧ (∀ x ∈ (divideData p w t v rev).1, x ∉ (divideData p w t v rev).2.2)
    ∧ (∀ x ∈ (divideData p w t v rev).2.1, x ∉ (divideData p w t v rev).2.2)
    ∧ (divideData p w t v rev).1.length + (divideData p w t v rev).2.1.length
        + (divideData p w t v rev).2.2.length ≤ p := by
  cases rev with
  | false =>
    obtain ⟨hab, hbp⟩ := floor_portion_facts p (1 - t - v) (1 - v)
      (by linarith) (by linarith)
    rw [divideData_eq_false p w t v ht hv htv]
    refine ⟨?_, ?_, ?_, ?_⟩
    · intro x hx hy
      have h1 := mem_truncateTail_range' hx
      have h2 := mem_truncateTail_range' hy
      omega
    · intro x hx hy
      have h1 := mem_truncateTail_range' hx
      have h2 := mem_truncateTail_range' hy
      omega
    · intro x hx hy
      have h1 := mem_truncateTail_range' hx
      have h2 := mem_truncateTail_range' hy
      omega
    · simp only [truncateTail_length, List.length_range']
      omega
  | true =>
    obtain ⟨hab, hbp⟩ := floor_portion_facts p v (v + t)
      (by linarith) (by linarith)
    rw [divideData_eq_true p w t v ht hv htv]
    refine ⟨?_, ?_, ?_, ?_⟩
    · intro x hx hy
      have h1 := mem_truncateTail_range' hx
      have h2 := mem_truncateTail_range' hy
      omega
    · intro x hx hy
      have h1 := mem_truncateTail_range' hx
      have h2 := mem_truncateTail_range' hy
      omega
    · intro x hx hy
      have h1 := mem_truncateTail_range' hx
      have h2 := mem_truncateTail_range' hy
      omega
    · simp only [truncateTail_length, List.length_range']
      omega

/-- Witness for C7 at `period_num = 10`, `window_size = 1`,
`test = 1/5`, `val = 1/10`, forward order. -/
theorem divideData_disjoint_bounded_witness :
    (∀ x ∈ (divideData 10 1 (1/5) (1/10) false).1,
        x ∉ (divideData 10 1 (1/5) (1/10) false).2.1)
    ∧ (∀ x ∈ (divideData 10 1 (1/5) (1/10) false).1,
        x ∉ (divideData 10 1 (1/5) (1/10) false).2.2)
    ∧ (∀ x ∈ (divideData 10 1 (1/5) (1/10) false).2.1,
        x ∉ (divideData 10 1 (1/5) (1/10) false).2.2)
    ∧ (divideData 10 1 (1/5) (1/10) false).1.length
        + (divideData 10 1 (1/5) (1/10) false).2.1.length
        + (divideData 10 1 (1/5) (1/10) false).2.2.length ≤ 10 :=
  divideData_disjoint_bounded 10 1 (1/5) (1/10) false
    (by norm_num) (by norm_num) (by norm_num)

/-! Concrete-input evaluation helpers.

Kernel reduction is blocked on `ℚ` arithmetic, so concrete runs of
`_divide_data` are evaluated by first rewriting the two `astype(int)` cut
points to integer literals (by `norm_num`) and then deciding the remaining
natural-number list computation. -/

lemma truncToInt_intCast (n : ℤ) : truncToInt ((n : ℚ)) = n := by
  rw [truncToInt, Rat.num_intCast, Rat.den_intCast, Nat.cast_one, Int.tdiv_one]

lemma truncToInt_eq_of (q : ℚ) (n : ℤ) (h : q = (n : ℚ)) : truncToInt q = n := by
  rw [h, truncToInt_intCast]

lemma divideData_false_eval (p w : ℕ) (t v : ℚ) (i j : ℤ)
    (h1 : (1 - t - v) * (p : ℚ) = (i : ℚ))
    (h2 : ((1 - t - v) + t) * (p : ℚ) = (j : ℚ)) :
    divideData p w t v false =
      match pySplit3 (List.range p) i j with
      | (trainIdx, testIdx, valIdx) =>
        (truncateTail trainIdx (w + 1), truncateTail testIdx (w + 1),
         truncateTail valIdx (w + 1)) := by
  rw [divideData]
  simp only [Bool.false_eq_true, if_false]
  rw [truncToInt_eq_of _ _ h1, truncToInt_eq_of _ _ h2]

lemma divideData_true_eval (p w : ℕ) (t v : ℚ) (i j : ℤ)
    (h1 : v * (p : ℚ) = (i : ℚ))
    (h2 : (v + t) * (p : ℚ) = (j : ℚ)) :
    divideData p w t v true =
      match pySplit3 (List.range p) i j with
      | (valIdx, testIdx, trainIdx) =>
        (truncateTail trainIdx (w + 1), truncateTail testIdx (w + 1),
         truncateTail valIdx (w + 1)) := by
  rw [divideData]
  simp only [if_true]
  rw [truncToInt_eq_of _ _ h1, truncToInt_eq_of _ _ h2]

/-! Claim C8: `_divide_data` performs no validation. -/

/-- C8 counterexample: with `test = 7/10` and `val = 5/10`
(`test + val = 6/5 ≥ 1`) and `period_num = 10`, `window_size = 1`,
`_divide_data` raises nothing and returns a value — moreover the returned
train and val ranges silently OVERLAP (both contain index 5), instead of
any configuration error being raised at the call. -/
theorem divideData_invalid_counterexample :
    divideData 10 1 (7/10) (5/10) false = ([0, 1, 2, 3, 4, 5], [], [5, 6, 7])
    ∧ (5 : ℕ) ∈ (divideData 10 1 (7/10) (5/10) false).1
    ∧ (5 : ℕ) ∈ (divideData 10 1 (7/10) (5/10) false).2.2 := by
  have h : divideData 10 1 (7/10) (5/10) false = ([0, 1, 2, 3, 4, 5], [], [5, 6, 7]) := by
    rw [divideData_false_eval 10 1 (7/10) (5/10) (-2) 5 (by norm_num) (by norm_num)]
    decide
  rw [h]
  exact ⟨rfl, by decide, by decide⟩

/-- C8 amended: `_divide_data` never raises; it is a total function.  Every
index it returns is in bounds (`< period_num`), and when
`period_num ≤ window_size` it silently returns three empty ranges instead of
reporting the configuration error; invalid fractions likewise silently
produce (possibly overlapping) ranges. -/
theorem divideData_no_validation (p w : ℕ) (t v : ℚ) (rev : Bool) :
    (∀ x ∈ (divideData p w t v rev).1, x < p)
    ∧ (∀ x ∈ (divideData p w t v rev).2.1, x < p)
    ∧ (∀ x ∈ (divideData p w t v rev).2.2, x < p)
    ∧ (p ≤ w → divideData p w t v rev = ([], [], [])) := by
  have key : ∀ (i j : ℤ),
      (∀ x ∈ truncateTail (pySplit3 (List.range p) i j).1 (w + 1), x < p)
      ∧ (∀ x ∈ truncateTail (pySplit3 (List.range p) i j).2.1 (w + 1), x < p)
      ∧ (∀ x ∈ truncateTail (pySplit3 (List.range p) i j).2.2 (w + 1), x < p)
      ∧ (p ≤ w →
          truncateTail (pySplit3 (List.range p) i j).1 (w + 1) = []
          ∧ truncateTail (pySplit3 (List.range p) i j).2.1 (w + 1) = []
          ∧ truncateTail (pySplit3 (List.range p) i j).2.2 (w + 1) = []) := by
    intro i j
    obtain ⟨s1, s2, s3⟩ := pySplit3_subset (List.range p) i j
    obtain ⟨l1, l2, l3⟩ := pySplit3_length_le (List.range p) i j
    rw [List.length_range] at l1 l2 l3
    refine ⟨?_, ?_, ?_, ?_⟩
    · intro x hx
      exact List.mem_range.mp (s1 (mem_truncateTail hx))
    · intro x hx
      exact List.mem_range.mp (s2 (mem_truncateTail hx))
    · intro x hx
      exact List.mem_range.mp (s3 (mem_truncateTail hx))
    · intro hpw
      exact ⟨truncateTail_eq_nil (by omega), truncateTail_eq_nil (by omega),
        truncateTail_eq_nil (by omega)⟩
  cases rev with
  | false =>
    rw [divideData]
    simp only [Bool.false_eq_true, if_false]
    obtain ⟨k1, k2, k3, k4⟩ := key
      (truncToInt ((1 - t - v) * (p : ℚ)))
      (truncToInt (((1 - t - v) + t) * (p : ℚ)))
    exact ⟨k1, k2, k3, fun hpw => by
      obtain ⟨n1, n2, n3⟩ := k4 hpw
      rw [n1, n2, n3]⟩
  | true =>
    rw [divideData]
    simp only [if_true]
    obtain ⟨k1, k2, k3, k4⟩ := key
      (truncToInt (v * (p : ℚ)))
      (truncToInt ((v + t) * (p : ℚ)))
    exact ⟨k3, k2, k1, fun hpw => by
      obtain ⟨n1, n2, n3⟩ := k4 hpw
      rw [n1, n2, n3]⟩

/-- Witness for C8's amended statement at `period_num = 3`,
`window_size = 5` (`p ≤ w`, so all ranges are silently empty). -/
theorem divideData_no_validation_witness :
    ((∀ x ∈ (divideData 3 5 (1/10) (1/10) false).1, x < 3)
    ∧ (∀ x ∈ (divideData 3 5 (1/10) (1/10) false).2.1, x < 3)
    ∧ (∀ x ∈ (divideData 3 5 (1/10) (1/10) false).2.2, x < 3)
    ∧ (3 ≤ 5 → divideData 3 5 (1/10) (1/10) false = ([], [], [])))
    ∧ divideData 3 5 (1/10) (1/10) false = ([], [], []) :=
  ⟨divideData_no_validation 3 5 (1/10) (1/10) false,
   (divideData_no_validation 3 5 (1/10) (1/10) false).2.2.2 (by norm_num)⟩

/-! Claim C2: the geometric rejection sampler. -/

/-- Structure of any successful `_sample_geometric` run: a rejected prefix
of draws each exceeding `end - start`, then an accepted draw `k` with
`1 ≤ k ≤ end - start` (given that every geometric draw is `≥ 1`), and the
returned index is `end - k`. -/
lemma sampleGeometric_spec_aux (draws : List ℕ) :
    ∀ (start stop r : ℕ) (rest : List ℕ),
      (∀ d ∈ draws, 1 ≤ d) →
      sampleGeometric draws start stop = some (r, rest) →
      ∃ pre k, draws = pre ++ k :: rest ∧ (∀ d ∈ pre, stop - start < d) ∧
        1 ≤ k ∧ k ≤ stop - start ∧ r = stop - k := by
  induction draws with
  | nil =>
    intro start stop r rest _ h
    simp [sampleGeometric] at h
  | cons d ds ih =>
    intro start stop r rest hd h
    rw [sampleGeometric] at h
    by_cases hc : stop - start < d
    · rw [if_pos hc] at h
      obtain ⟨pre, k, heq, hpre, hk1, hk2, hr⟩ :=
        ih start stop r rest (fun x hx => hd x (List.mem_cons_of_mem _ hx)) h
      refine ⟨d :: pre, k, by rw [heq]; rfl, ?_, hk1, hk2, hr⟩
      intro x hx
      rcases List.mem_cons.mp hx with h1 | h2
      · exact h1 ▸ hc
      · exact hpre x h2
    · rw [if_neg hc] at h
      obtain ⟨h1, h2⟩ := Prod.mk.injEq .. ▸ Option.some.inj h
      refine ⟨[], d, by simp [h2], by simp, hd d (List.mem_cons_self d ds), by omega,
        h1.symm⟩

/-- C2 (confirmed): whenever `_sample_geometric(start, end, bias)` returns
(for `start < end` and geometric draws `k ≥ 1`), it returns `end - k` for an
accepted draw `k` with `1 ≤ k ≤ end - start`, every earlier draw having been
rejected because it exceeded `end - start`; consequently the returned index
lies in `[start, end)`. -/
theorem sampleGeometric_returns_in_range (draws : List ℕ) (start stop r : ℕ)
    (rest : List ℕ) (hd : ∀ d ∈ draws, 1 ≤ d) (hs : start < stop)
    (h : sampleGeometric draws start stop = some (r, rest)) :
    (∃ pre k, draws = pre ++ k :: rest ∧ (∀ d ∈ pre, stop - start < d) ∧
      1 ≤ k ∧ k ≤ stop - start ∧ r = stop - k)
    ∧ start ≤ r ∧ r < stop := by
  obtain ⟨pre, k, heq, hpre, hk1, hk2, hr⟩ :=
    sampleGeometric_spec_aux draws start stop r rest hd h
  exact ⟨⟨pre, k, heq, hpre, hk1, hk2, hr⟩, by omega, by omega⟩

/-- Witness for C2: draws `[5, 2]` on `[0, 3)` reject `5` and accept `2`,
returning index `1`. -/
theorem sampleGeometric_returns_in_range_witness :
    ((∃ pre k, [5, 2] = pre ++ k :: ([] : List ℕ) ∧ (∀ d ∈ pre, 3 - 0 < d) ∧
      1 ≤ k ∧ k ≤ 3 - 0 ∧ 1 = 3 - k)
    ∧ 0 ≤ 1 ∧ 1 < 3) :=
  sampleGeometric_returns_in_range [5, 2] 0 3 1 [] (by decide) (by decide) (by decide)

/-! Claims C1 and C4: inversion of `_pack_samples`. -/

/-- A default packed batch, used only to name concrete packed results. -/
def emptyPack : PackedBatch :=
  { X := fun _ _ _ _ => 0
    y := fun _ _ _ => 0
    last_w := fun _ _ => 0
    setw := fun _ _ _ => 0 }

/-- Inversion of a successful `_pack_samples` call: the guard held and the
result is the literal sample dictionary. -/
lemma packSamples_inv (b : PGPBuffer) (index : List ℕ) (pb : PackedBatch)
    (h : packSamples b index = some pb) :
    index ≠ [] ∧
    (∀ i ∈ index, sliceLen b.periodNum b.windowSize i
      = sliceLen b.periodNum b.windowSize (index.headD 0)) ∧
    2 ≤ sliceLen b.periodNum b.windowSize (index.headD 0) ∧
    (b.featureNum = index.length ∨ b.featureNum = 1 ∨ index.length = 1) ∧
    pb =
      { X := fun s f c tt => b.features f c (index.getD s 0 + tt)
        y := fun s j c =>
          b.features (if b.featureNum = 1 then 0 else j) c
            (index.getD s 0 + sliceLen b.periodNum b.windowSize (index.headD 0) - 1) /
          b.features 0 c
            (index.getD (if index.length = 1 then 0 else j) 0
              + sliceLen b.periodNum b.windowSize (index.headD 0) - 2)
        last_w := fun s c => pvmRead b.pvmRows b.pvm ((index.getD s 0 : ℤ) - 1) c
        setw := fun w r c =>
          match lastPos index r with
          | some p => w p c
          | none => b.pvm r c } := by
  rw [packSamples] at h
  by_cases hc : index ≠ [] ∧
      (∀ i ∈ index, sliceLen b.periodNum b.windowSize i
        = sliceLen b.periodNum b.windowSize (index.headD 0)) ∧
      2 ≤ sliceLen b.periodNum b.windowSize (index.headD 0) ∧
      (b.featureNum = index.length ∨ b.featureNum = 1 ∨ index.length = 1)
  · rw [if_pos hc] at h
    exact ⟨hc.1, hc.2.1, hc.2.2.1, hc.2.2.2, (Option.some.inj h).symm⟩
  · rw [if_neg hc] at h
    exact absurd h (by simp)

/-- C1 amended (single-index packs): for a successfully packed single index
whose full `window_size + 1` window fits in the feature tensor, the target
satisfies `target[asset] = price_channel[asset, last_step] /
price_channel[asset, second_to_last_step]` — each asset is normalised by its
OWN reference price one step earlier (not by asset 0's). -/
theorem packSamples_target_single (b : PGPBuffer) (idx : ℕ) (pb : PackedBatch)
    (h : packSamples b [idx] = some pb) (hw : idx + b.windowSize + 1 ≤ b.periodNum)
    (c : ℕ) :
    pb.y 0 0 c =
      b.features 0 c (idx + b.windowSize) / b.features 0 c (idx + b.windowSize - 1) := by
  obtain ⟨-, -, hL, -, hpb⟩ := packSamples_inv b [idx] pb h
  have hsl : sliceLen b.periodNum b.windowSize (([idx] : List ℕ).headD 0)
      = b.windowSize + 1 := by
    simp only [List.headD, sliceLen]
    omega
  rw [hsl] at hL hpb
  subst hpb
  simp only [List.getD_cons_zero, List.length_cons, List.length_nil, ite_self]
  have e1 : idx + (b.windowSize + 1) - 1 = idx + b.windowSize := by omega
  have e2 : idx + (b.windowSize + 1) - 2 = idx + b.windowSize - 1 := by omega
  rw [e1, e2]

/-- Features for the C1 counterexample buffer: one price channel, two
assets; asset 0 has prices (100, 110), asset 1 has prices (50, 55). -/
def featA : ℕ → ℕ → ℕ → ℚ := fun _ c t =>
  if c = 0 then (if t = 0 then 100 else 110) else (if t = 0 then 50 else 55)

/-- C1 counterexample buffer: 1 channel, 2 assets, 2 timesteps,
`window_size = 1`. -/
def bC1a : PGPBuffer :=
  mkBuffer 1 2 2 featA 50 1 0 0 (1/10) false false

/-- Features for the second C1 counterexample buffer: one channel, one
asset, prices (2, 3, 5, 7). -/
def featB : ℕ → ℕ → ℕ → ℚ := fun _ _ t =>
  if t = 0 then 2 else if t = 1 then 3 else if t = 2 then 5 else 7

/-- Second C1 counterexample buffer: 1 channel, 1 asset, 4 timesteps,
`window_size = 1`. -/
def bC1b : PGPBuffer :=
  mkBuffer 1 1 4 featB 50 1 0 0 (1/10) false false

/-- C1 counterexample.  Packing the single index 0 of `bC1a`
(prices: asset 0 moves 100 → 110, asset 1 moves 50 → 55) yields
`target[1] = 55/50 = 1.1`, whereas the claimed formula
`price_channel[1, last] / price_channel[0, second_to_last] = 55/100`
differs: the code divides by the SAME asset's prior price, not asset 0's.
The claimed value `target[0] = 1.10` does hold for asset 0.
Moreover for a packed pair of indices `[1, 2]` of `bC1b`
(prices 2, 3, 5, 7), sample 1's target is `7/3` — the broadcast of
`batch[:, :, :, -1] / batch[:, 0, :, -2]` misaligns the denominator to
sample 0's window — instead of the claimed `7/5`. -/
theorem packSamples_target_counterexample :
    ((packSamples bC1a [0]).map fun pb => pb.y 0 0 1) = some (11/10 : ℚ)
    ∧ ((11/10 : ℚ) ≠ 55/100)
    ∧ ((packSamples bC1a [0]).map fun pb => pb.y 0 0 0) = some (11/10 : ℚ)
    ∧ ((packSamples bC1b [1, 2]).map fun pb => pb.y 1 0 0) = some (7/3 : ℚ)
    ∧ ((7 : ℚ)/3 ≠ 7/5) := by
  have hA : ((packSamples bC1a [0]).map fun pb => pb.y 0 0 1) = some ((55 : ℚ)/50) := rfl
  have hA0 : ((packSamples bC1a [0]).map fun pb => pb.y 0 0 0) = some ((110 : ℚ)/100) := rfl
  have hB : ((packSamples bC1b [1, 2]).map fun pb => pb.y 1 0 0) = some ((7 : ℚ)/3) := rfl
  refine ⟨?_, by norm_num, ?_, hB, by norm_num⟩
  · rw [hA]
    norm_num
  · rw [hA0]
    norm_num

/-- Witness buffer for the amended C1: 1 channel, 1 asset, 3 timesteps,
prices `t + 2`. -/
def bC1w : PGPBuffer :=
  mkBuffer 1 1 3 (fun _ _ t => (t : ℚ) + 2) 50 1 0 0 (1/10) false false

/-- The packed single sample at index 0 of `bC1w`. -/
def pbC1w : PackedBatch :=
  (packSamples bC1w [0]).getD emptyPack

/-- Witness for the amended C1 at `bC1w`, index 0. -/
theorem packSamples_target_single_witness :
    (0 + bC1w.windowSize + 1 ≤ bC1w.periodNum)
    ∧ pbC1w.y 0 0 0 =
        bC1w.features 0 0 (0 + bC1w.windowSize) /
          bC1w.features 0 0 (0 + bC1w.windowSize - 1) :=
  ⟨by decide, packSamples_target_single bC1w 0 pbC1w rfl (by decide) 0⟩

lemma lastPos_eq_none {l : List ℕ} {r : ℕ} (h : r ∉ l) : lastPos l r = none := by
  induction l with
  | nil => rfl
  | cons x xs ih =>
    by_cases hxr : x = r
    · subst hxr
      exact absurd (List.mem_cons_self x xs) h
    · rw [lastPos, ih fun hm => h (List.mem_cons_of_mem _ hm), if_neg hxr]

lemma lastPos_get {l : List ℕ} (hnd : l.Nodup) (p : ℕ) (hp : p < l.length) :
    lastPos l (l.get ⟨p, hp⟩) = some p := by
  induction l generalizing p with
  | nil => exact absurd hp (by simp)
  | cons x xs ih =>
    obtain ⟨hx, hxs⟩ := List.nodup_cons.mp hnd
    cases p with
    | zero =>
      rw [lastPos]
      rw [show (x :: xs).get ⟨0, hp⟩ = x from rfl, lastPos_eq_none hx, if_pos rfl]
    | succ p =>
      have hp' : p < xs.length := by simpa using hp
      rw [lastPos]
      rw [show (x :: xs).get ⟨p + 1, hp⟩ = xs.get ⟨p, hp'⟩ from rfl, ih hxs p hp']

/-- C4 (confirmed): for any successfully packed duplicate-free index list
(under the PVM-rows invariant `pvm.shape[0] = period_num`), the returned
`last_w` row of position `p` is the PVM row at `index[p] - 1` as it was
before any write-back; after the `setw` write-back with new weights `w`,
the PVM rows at exactly the packed indices equal the just-written rows of
`w`, and every other row is unchanged. -/
theorem packSamples_prior_weights_writeback (b : PGPBuffer) (index : List ℕ)
    (pb : PackedBatch) (h : packSamples b index = some pb) (hnd : index.Nodup)
    (hrows : b.pvmRows = b.periodNum) (p : ℕ) (hp : p < index.length)
    (w : ℕ → ℕ → ℚ) (c : ℕ) :
    (1 ≤ index.get ⟨p, hp⟩ →
      pb.last_w p c = b.pvm (index.get ⟨p, hp⟩ - 1) c)
    ∧ pb.setw w (index.get ⟨p, hp⟩) c = w p c
    ∧ (∀ r, r ∉ index → pb.setw w r c = b.pvm r c) := by
  obtain ⟨hne, hsl, hL, hbc, hpb⟩ := packSamples_inv b index pb h
  have hmem : index.get ⟨p, hp⟩ ∈ index := List.get_mem index p hp
  have hidx : index.get ⟨p, hp⟩ + 2 ≤ b.periodNum := by
    have h2 := hsl _ hmem
    rw [← h2, sliceLen] at hL
    omega
  have hgetD : index.getD p 0 = index.get ⟨p, hp⟩ := by
    rw [List.getD_eq_getElem index 0 hp]
    exact (List.get_eq_getElem index ⟨p, hp⟩).symm
  subst hpb
  refine ⟨?_, ?_, ?_⟩
  · intro h1
    show pvmRead b.pvmRows b.pvm ((index.getD p 0 : ℤ) - 1) c = _
    rw [hgetD, pvmRead]
    have hmod : ((index.get ⟨p, hp⟩ : ℤ) - 1) % (b.pvmRows : ℤ)
        = (index.get ⟨p, hp⟩ : ℤ) - 1 := by
      apply Int.emod_eq_of_lt (by omega)
      omega
    rw [hmod]
    congr 1
    omega
  · show (match lastPos index (index.get ⟨p, hp⟩) with
      | some q => w q c
      | none => b.pvm (index.get ⟨p, hp⟩) c) = w p c
    rw [lastPos_get hnd p hp]
  · intro r hr
    show (match lastPos index r with
      | some q => w q c
      | none => b.pvm r c) = b.pvm r c
    rw [lastPos_eq_none hr]

/-- Witness buffer for C4: 2 channels, 2 assets, 5 timesteps,
`window_size = 1`. -/
def bC4 : PGPBuffer :=
  mkBuffer 2 2 5 (fun f c t => (f : ℚ) + c + t) 3 1 0 0 (1/10) false false

/-- The packed single sample at index 1 of `bC4`. -/
def pbC4 : PackedBatch :=
  (packSamples bC4 [1]).getD emptyPack

/-- Witness for C4 at `bC4`, packed index list `[1]`, position 0. -/
theorem packSamples_prior_weights_writeback_witness :
    pbC4.last_w 0 0 = bC4.pvm 0 0
    ∧ pbC4.setw (fun _ _ => (7 : ℚ)) 1 0 = 7
    ∧ pbC4.setw (fun _ _ => (7 : ℚ)) 0 0 = bC4.pvm 0 0 :=
  ⟨(packSamples_prior_weights_writeback bC4 [1] pbC4 rfl (by simp) rfl 0 (by decide)
      (fun _ _ => (7 : ℚ)) 0).1 (by decide),
   (packSamples_prior_weights_writeback bC4 [1] pbC4 rfl (by simp) rfl 0 (by decide)
      (fun _ _ => (7 : ℚ)) 0).2.1,
   (packSamples_prior_weights_writeback bC4 [1] pbC4 rfl (by simp) rfl 0 (by decide)
      (fun _ _ => (7 : ℚ)) 0).2.2 0 (by decide)⟩

/-! Claims C9 and C10: `next_batch`. -/

/-- Bounds for one accepted geometric sample, plus preservation of the
draw-support property on the remaining stream. -/
lemma sampleGeometric_ge (draws : List ℕ) (start stop r : ℕ) (rest : List ℕ)
    (hd : ∀ d ∈ draws, 1 ≤ d) (h : sampleGeometric draws start stop = some (r, rest)) :
    start ≤ r ∧ r < stop ∧ (∀ d ∈ rest, 1 ≤ d) := by
  obtain ⟨pre, k, heq, hpre, hk1, hk2, hr⟩ :=
    sampleGeometric_spec_aux draws start stop r rest hd h
  refine ⟨by omega, by omega, ?_⟩
  intro d hdm
  exact hd d (heq ▸ List.mem_append_right pre (List.mem_cons_of_mem k hdm))

/-- Every index produced by a run of `batch_size` independent geometric
samples lies in `[start, stop)`. -/
lemma sampleMany_ge (count : ℕ) : ∀ (draws : List ℕ) (start stop : ℕ) (l : List ℕ),
    (∀ d ∈ draws, 1 ≤ d) → sampleMany draws start stop count = some l →
    ∀ i ∈ l, start ≤ i ∧ i < stop := by
  induction count with
  | zero =>
    intro draws start stop l _ h i hi
    rw [sampleMany] at h
    obtain rfl := Option.some.inj h
    exact absurd hi (by simp)
  | succ n ih =>
    intro draws start stop l hd h
    rw [sampleMany] at h
    split at h
    · exact absurd h (by simp)
    · rename_i r rest hg
      split at h
      · exact absurd h (by simp)
      · rename_i l2 hm
        obtain rfl := Option.some.inj h
        obtain ⟨h1, h2, h3⟩ := sampleGeometric_ge draws start stop r rest hd hg
        intro i hi
        rcases List.mem_cons.mp hi with rfl | hi2
        · exact ⟨h1, h2⟩
        · exact ih rest start stop l2 h3 hm i hi2

/-- C9 amended: every index in a sampled training batch is at least
`train_idx[0]`.  Hence index 0 is excluded from batches exactly when
`train_idx[0] > 0` (e.g. in reversed/online mode with nonzero cut points);
in forward mode `train_idx[0] = 0` and, as the counterexample shows, index 0
CAN be sampled, making `_pack_samples` read the prior-weight row `-1`
(numpy wraps it to the last PVM row rather than raising). -/
theorem nextBatchIdx_lower_bound (b : PGPBuffer) (draws : List ℕ) (batch : List ℕ)
    (s0 : ℕ) (hd : ∀ d ∈ draws, 1 ≤ d) (hh : b.trainIdx.head? = some s0)
    (h : nextBatchIdx b draws = some batch) :
    ∀ i ∈ batch, s0 ≤ i := by
  rw [nextBatchIdx] at h
  split at h
  · rename_i startIdx endIdx hh2 hl2
    rw [hh] at hh2
    obtain rfl := Option.some.inj hh2
    by_cases hu : b.isUnordered = true
    · rw [if_pos hu] at h
      intro i hi
      exact (sampleMany_ge b.batchSize draws s0 endIdx batch hd h i hi).1
    · rw [if_neg hu] at h
      split at h
      · exact absurd h (by simp)
      · rename_i s rest hg
        obtain rfl := Option.some.inj h
        intro i hi
        have hs := (sampleGeometric_ge draws s0 endIdx s rest hd hg).1
        have hb := List.mem_range'_1.mp hi
        omega
  · exact absurd h (by simp)

/-- In ordered mode a successful `next_batch` index list is the contiguous
range `[s, s + batch_size)` for the sampled start `s`. -/
lemma nextBatchIdx_ordered_shape (b : PGPBuffer) (draws : List ℕ) (batch : List ℕ)
    (hu : b.isUnordered = false) (h : nextBatchIdx b draws = some batch) :
    ∃ s, batch = List.range' s b.batchSize := by
  rw [nextBatchIdx] at h
  split at h
  · rename_i startIdx endIdx hh2 hl2
    rw [if_neg (by simp [hu])] at h
    split at h
    · exact absurd h (by simp)
    · rename_i s rest hg
      exact ⟨s, (Option.some.inj h).symm⟩
  · exact absurd h (by simp)

/-- C10 amended: in ordered mode (with `batch_size ≥ 2`), `next_batch` does
NOT fail when `s + batch_size` overruns the training range — as the
counterexample shows, it silently returns indices beyond `train_idx[-1]`.
The only bound a successfully returned batch satisfies is the tensor bound:
every returned index has its full `window_size + 1` window inside the
feature tensor (`torch.stack` raises on the ragged slices otherwise). -/
theorem nextBatch_ordered_window_bounds (b : PGPBuffer) (draws : List ℕ)
    (idx : List ℕ) (pb : PackedBatch) (hu : b.isUnordered = false)
    (hbs : 2 ≤ b.batchSize) (h : nextBatch b draws = some (idx, pb)) :
    ∀ i ∈ idx, i + b.windowSize + 1 ≤ b.periodNum := by
  rw [nextBatch] at h
  split at h
  · exact absurd h (by simp)
  · rename_i idx2 hni
    split at h
    · exact absurd h (by simp)
    · rename_i pb2 hpk
      have hpair := Option.some.inj h
      have hidx : idx2 = idx := congrArg Prod.fst hpair
      subst hidx
      obtain ⟨s, hsh⟩ := nextBatchIdx_ordered_shape b draws idx2 hu hni
      subst hsh
      obtain ⟨-, hsl, hL, -, -⟩ := packSamples_inv b _ pb2 hpk
      have hhead : (List.range' s b.batchSize).headD 0 = s := by
        obtain ⟨n, hn⟩ : ∃ n, b.batchSize = n + 1 := ⟨b.batchSize - 1, by omega⟩
        rw [hn, List.range'_succ, List.headD_cons]
      rw [hhead] at hsl hL
      have hmem1 : s + 1 ∈ List.range' s b.batchSize :=
        List.mem_range'_1.mpr (by omega)
      have hs1 := hsl (s + 1) hmem1
      rw [sliceLen, sliceLen] at hs1
      rw [sliceLen] at hL
      have hfull : min (b.windowSize + 1) (b.periodNum - s) = b.windowSize + 1 := by
        omega
      intro i hi
      have hieq := hsl i hi
      rw [sliceLen, sliceLen, hfull] at hieq
      omega

/-- C9 counterexample buffer: forward (non-reversed) order,
`period_num = 10`, `window_size = 1`, `test = val = 1/5`, `batch_size = 2`,
ordered mode. -/
def bC9 : PGPBuffer :=
  mkBuffer 1 1 10 (fun _ _ _ => 1) 2 1 (1/5) (1/5) (1/10) false false

lemma bC9_train : bC9.trainIdx = [0, 1, 2, 3] := by
  show (divideData 10 1 (1/5) (1/5) false).1 = _
  rw [divideData_false_eval 10 1 (1/5) (1/5) 6 8 (by norm_num) (by norm_num)]
  decide

lemma bC9_eta : bC9 = { bC9 with trainIdx := [0, 1, 2, 3] } := by
  have h := bC9_train
  rw [← h]

lemma bC9_head : bC9.trainIdx.head? = some 0 := by
  rw [bC9_train]
  rfl

lemma bC9_batch : nextBatchIdx bC9 [3] = some [0, 1] := by
  rw [bC9_eta]
  decide

/-- C9 counterexample: on the forward-order buffer `bC9` the training range
is `[0, 1, 2, 3]`, and with the accepted geometric draw `3` the sampled
ordered batch is `[0, 1]` — it CONTAINS index 0, and `_pack_samples`
nevertheless succeeds (reading the prior-weight row at `-1`). -/
theorem nextBatchIdx_zero_counterexample :
    nextBatchIdx bC9 [3] = some [0, 1]
    ∧ (0 : ℕ) ∈ [0, 1]
    ∧ bC9.portionReversed = false
    ∧ (nextBatch bC9 [3]).isSome = true := by
  refine ⟨bC9_batch, by decide, rfl, ?_⟩
  rw [bC9_eta]
  decide

/-- Witness for the amended C9 on `bC9` with draw stream `[3]`: both
returned batch indices are `≥ train_idx[0] = 0`. -/
theorem nextBatchIdx_lower_bound_witness :
    (0 : ℕ) ≤ 0 ∧ (0 : ℕ) ≤ 1 :=
  ⟨nextBatchIdx_lower_bound bC9 [3] [0, 1] 0 (by decide) bC9_head bC9_batch 0
      (by decide),
   nextBatchIdx_lower_bound bC9 [3] [0, 1] 0 (by decide) bC9_head bC9_batch 1
      (by decide)⟩

/-- C10 counterexample buffer: forward order, `period_num = 20`,
`window_size = 1`, `test = val = 1/4`, `batch_size = 4`, ordered mode. -/
def bC10 : PGPBuffer :=
  mkBuffer 1 1 20 (fun _ _ _ => 1) 4 1 (1/4) (1/4) (1/10) false false

lemma bC10_train : bC10.trainIdx = [0, 1, 2, 3, 4, 5, 6, 7] := by
  show (divideData 20 1 (1/4) (1/4) false).1 = _
  rw [divideData_false_eval 20 1 (1/4) (1/4) 10 15 (by norm_num) (by norm_num)]
  decide

lemma bC10_eta : bC10 = { bC10 with trainIdx := [0, 1, 2, 3, 4, 5, 6, 7] } := by
  have h := bC10_train
  rw [← h]

/-- The packed batch returned by `next_batch` on `bC10` with draw stream
`[1]`. -/
def pbC10 : PackedBatch :=
  ((nextBatch { bC10 with trainIdx := [0, 1, 2, 3, 4, 5, 6, 7] } [1]).getD
    ([], emptyPack)).2

lemma bC10_next : nextBatch bC10 [1] = some ([6, 7, 8, 9], pbC10) := by
  rw [bC10_eta]
  rfl

/-- C10 counterexample: on `bC10` the valid training range ends at
`train_idx[-1] = 7`, the sampled ordered batch start is `s = 6`, and
`s + batch_size = 10` exceeds the range — yet `next_batch` raises no error:
it successfully returns the batch `[6, 7, 8, 9]`, which contains the
out-of-range indices 8 and 9 (they lie beyond the training range, inside
the test region). -/
theorem nextBatch_out_of_range_counterexample :
    nextBatchIdx bC10 [1] = some [6, 7, 8, 9]
    ∧ bC10.trainIdx.getLast? = some 7
    ∧ (nextBatch bC10 [1]).isSome = true
    ∧ (9 : ℕ) ∈ [6, 7, 8, 9]
    ∧ (9 : ℕ) ∉ bC10.trainIdx := by
  refine ⟨?_, ?_, ?_, by decide, ?_⟩
  · rw [bC10_eta]
    decide
  · rw [bC10_train]
    rfl
  · rw [bC10_next]
    rfl
  · rw [bC10_train]
    decide

/-- Witness for the amended C10 on `bC10` with draw stream `[1]`: each
returned index, e.g. 9, keeps its full window inside the feature tensor. -/
theorem nextBatch_ordered_window_bounds_witness :
    9 + bC10.windowSize + 1 ≤ bC10.periodNum :=
  nextBatch_ordered_window_bounds bC10 [1] [6, 7, 8, 9] pbC10 rfl (by decide)
    bC10_next 9 (by decide)


/-! Claims C5 and C6: `append_experience`. -/

lemma broadcastAddRange_length (l : List ℕ) (lastIdx n : ℕ) :
    (broadcastAddRange l lastIdx n).length = l.length := by
  rw [broadcastAddRange]
  by_cases h : n = 1
  · rw [if_pos h, List.length_map]
  · rw [if_neg h, List.length_mapIdx]

/-- C5 amended: `append_experience` raises and leaves the buffer unchanged
when the buffer is not in reversed mode; and it NEVER changes `train_num`:
`train_idx` is a numpy array, so `train_idx += list(range(...))` is
in-place elementwise broadcast addition, which preserves the array's
length whenever it does not raise (and raises a broadcast `ValueError`
otherwise), so no call — raising or not — grows the train index range. -/
theorem appendExperience_train_count (b : PGPBuffer) (nf : ℕ → ℕ → ℕ → ℚ)
    (nt : ℕ) (npvm : ℕ → ℕ → ℚ) :
    (b.portionReversed = false → appendExperience b nf nt npvm = AppendResult.err b)
    ∧ (appendExperience b nf nt npvm).state.train_num = b.train_num := by
  constructor
  · intro hrev
    rw [appendExperience, if_pos hrev]
  · by_cases hrev : b.portionReversed = false
    · rw [appendExperience, if_pos hrev]
      rfl
    · rw [appendExperience, if_neg hrev]
      split
      · rfl
      · rename_i lastIdx hl
        by_cases hbc : nt = b.trainIdx.length ∨ nt = 1
        · rw [if_pos hbc]
          by_cases hnt : nt = b.periodNum
          · rw [if_pos hnt]
            show (broadcastAddRange b.trainIdx lastIdx nt).length = b.trainIdx.length
            exact broadcastAddRange_length _ _ _
          · rw [if_neg hnt]
            show (broadcastAddRange b.trainIdx lastIdx nt).length = b.trainIdx.length
            exact broadcastAddRange_length _ _ _
        · rw [if_neg hbc]
          rfl

/-- C5 buffer in reversed/online mode with nonempty train range `[0, 1]`:
`period_num = 4`, `window_size = 1`, zero test/val portions. -/
def bC5w : PGPBuffer :=
  mkBuffer 1 1 4 (fun _ _ _ => 1) 2 1 0 0 (1/10) true false

lemma bC5w_train : bC5w.trainIdx = [0, 1] := by
  show (divideData 4 1 0 0 true).1 = _
  rw [divideData_true_eval 4 1 0 0 0 0 (by norm_num) (by norm_num)]
  decide

/-- C5 witness buffer in forward (non-reversed) mode. -/
def bC5nr : PGPBuffer :=
  mkBuffer 1 1 4 (fun _ _ _ => 1) 2 1 0 0 (1/10) false false

/-- Witness for the amended C5: appending to the non-reversed buffer
`bC5nr` raises with the buffer unchanged, and appending one timestep to
the reversed-mode buffer `bC5w` leaves `train_num` unchanged. -/
theorem appendExperience_train_count_witness :
    appendExperience bC5nr (fun _ _ _ => 0) 1 (fun _ _ => 0)
      = AppendResult.err bC5nr
    ∧ (appendExperience bC5w (fun _ _ _ => 0) 1 (fun _ _ => 0)).state.train_num
      = bC5w.train_num :=
  ⟨(appendExperience_train_count bC5nr (fun _ _ _ => 0) 1 (fun _ _ => 0)).1 rfl,
   (appendExperience_train_count bC5w (fun _ _ _ => 0) 1 (fun _ _ => 0)).2⟩

/-- C5 counterexample: `bC5w` was constructed with `reversed = True` and
has train range `[0, 1]`; appending `n = 1` timesteps does NOT make
`train_count` grow by 1.  The numpy broadcast `+=` adds `train_idx[-1] = 1`
elementwise (train range becomes `[1, 2]`, still length 2), and the
subsequent feature concatenation raises; `train_num` stays 2 ≠ 2 + 1. -/
theorem appendExperience_no_growth_counterexample :
    bC5w.portionReversed = true
    ∧ bC5w.train_num = 2
    ∧ (appendExperience bC5w (fun _ _ _ => 0) 1 (fun _ _ => 0)).state.trainIdx = [1, 2]
    ∧ (appendExperience bC5w (fun _ _ _ => 0) 1 (fun _ _ => 0)).state.train_num = 2
    ∧ ((2 : ℕ) ≠ 2 + 1) := by
  have heta : bC5w = { bC5w with trainIdx := [0, 1] } := by
    have h := bC5w_train
    rw [← h]
  refine ⟨rfl, ?_, ?_, ?_, by decide⟩ <;> (rw [heta]; decide)

/-- The train range returned by `_divide_data` is empty or strictly
shorter than `period_num`: the tail truncation removes `window_size + 1 ≥ 1`
indices from a range of at most `period_num` indices. -/
lemma divideData_train_length (p w : ℕ) (t v : ℚ) (rev : Bool) :
    (divideData p w t v rev).1 = [] ∨ (divideData p w t v rev).1.length < p := by
  have key : ∀ Y : List ℕ, Y.length ≤ p →
      (truncateTail Y (w + 1) = [] ∨ (truncateTail Y (w + 1)).length < p) := by
    intro Y hY
    by_cases he : truncateTail Y (w + 1) = []
    · exact Or.inl he
    · right
      have h1 : 0 < (truncateTail Y (w + 1)).length := List.length_pos.mpr he
      rw [truncateTail_length] at h1 ⊢
      omega
  cases rev with
  | false =>
    rw [divideData]
    simp only [Bool.false_eq_true, if_false]
    have h := (pySplit3_length_le (List.range p)
      (truncToInt ((1 - t - v) * (p : ℚ)))
      (truncToInt (((1 - t - v) + t) * (p : ℚ)))).1
    rw [List.length_range] at h
    exact key _ h
  | true =>
    rw [divideData]
    simp only [if_true]
    have h := (pySplit3_length_le (List.range p)
      (truncToInt (v * (p : ℚ)))
      (truncToInt ((v + t) * (p : ℚ)))).2.2
    rw [List.length_range] at h
    exact key _ h

/-- No `append_experience` call on a buffer whose train range is shorter
than `period_num` (as construction guarantees) can complete: the broadcast
`+=` demands `newTime ∈ {len(train_idx), 1}` while the dim-0 feature
concatenation demands `newTime = period_num`, which cannot both hold; and
every failure mode leaves the PVM rows, the feature time extent and the
train-range length untouched. -/
lemma appendExperience_no_success (b : PGPBuffer) (nf : ℕ → ℕ → ℕ → ℚ)
    (nt : ℕ) (npvm : ℕ → ℕ → ℚ)
    (hlen : b.trainIdx = [] ∨ b.trainIdx.length < b.periodNum) :
    (appendExperience b nf nt npvm).isOk = false
    ∧ (appendExperience b nf nt npvm).state.pvmRows = b.pvmRows
    ∧ (appendExperience b nf nt npvm).state.periodNum = b.periodNum
    ∧ (appendExperience b nf nt npvm).state.trainIdx.length = b.trainIdx.length := by
  by_cases hrev : b.portionReversed = false
  · rw [appendExperience, if_pos hrev]
    exact ⟨rfl, rfl, rfl, rfl⟩
  · rw [appendExperience, if_neg hrev]
    split
    · exact ⟨rfl, rfl, rfl, rfl⟩
    · rename_i lastIdx hl
      have hne : b.trainIdx ≠ [] := by
        intro h0
        rw [h0] at hl
        exact absurd hl (by simp)
      have hL : b.trainIdx.length < b.periodNum := hlen.resolve_left hne
      have hpos : 0 < b.trainIdx.length := List.length_pos.mpr hne
      by_cases hbc : nt = b.trainIdx.length ∨ nt = 1
      · rw [if_pos hbc]
        by_cases hnt : nt = b.periodNum
        · exfalso
          rcases hbc with h1 | h1 <;> omega
        · rw [if_neg hnt]
          exact ⟨rfl, rfl, rfl, broadcastAddRange_length _ _ _⟩
      · rw [if_neg hbc]
        exact ⟨rfl, rfl, rfl, rfl⟩

/-- C6 (confirmed): the invariant `pvm.shape[0] = features.shape[-1]` holds
at construction and is preserved by every operation.  The write-back of
`_pack_samples` only assigns PVM values in place and cannot change shapes;
`append_experience` can never complete successfully (the numpy broadcast
`+=` on `train_idx` and the dim-0 feature `t.cat` impose incompatible
requirements on the appended length once the train range is shorter than
`period_num`, which construction guarantees and every call preserves), and
all of its failure modes leave the PVM and the features untouched — so the
invariant survives, including after any (nonexistent) successful append. -/
theorem pvm_invariant_preserved (F C P bs w : ℕ) (feat : ℕ → ℕ → ℕ → ℚ)
    (t v sb : ℚ) (rev uo : Bool) (b : PGPBuffer) (nf : ℕ → ℕ → ℕ → ℚ)
    (nt : ℕ) (npvm : ℕ → ℕ → ℚ) (hrows : b.pvmRows = b.periodNum)
    (hlen : b.trainIdx = [] ∨ b.trainIdx.length < b.periodNum) :
    (mkBuffer F C P feat bs w t v sb rev uo).pvmRows
      = (mkBuffer F C P feat bs w t v sb rev uo).periodNum
    ∧ ((mkBuffer F C P feat bs w t v sb rev uo).trainIdx = []
        ∨ (mkBuffer F C P feat bs w t v sb rev uo).trainIdx.length
            < (mkBuffer F C P feat bs w t v sb rev uo).periodNum)
    ∧ (appendExperience b nf nt npvm).isOk = false
    ∧ (appendExperience b nf nt npvm).state.pvmRows
        = (appendExperience b nf nt npvm).state.periodNum
    ∧ ((appendExperience b nf nt npvm).state.trainIdx = []
        ∨ (appendExperience b nf nt npvm).state.trainIdx.length
            < (appendExperience b nf nt npvm).state.periodNum) := by
  obtain ⟨h1, h2, h3, h4⟩ := appendExperience_no_success b nf nt npvm hlen
  refine ⟨rfl, ?_, h1, ?_, ?_⟩
  · show (divideData P w t v rev).1 = [] ∨ (divideData P w t v rev).1.length < P
    exact divideData_train_length P w t v rev
  · rw [h2, h3, hrows]
  · rcases hlen with h0 | h0
    · left
      apply List.length_eq_zero.mp
      rw [h4, h0]
      rfl
    · right
      rw [h4, h3]
      exact h0

/-- Witness for C6 at `bC5w` (reversed mode, train range `[0, 1]`,
`period_num = 4`), appending one timestep. -/
theorem pvm_invariant_preserved_witness :
    bC5w.pvmRows = bC5w.periodNum
    ∧ (bC5w.trainIdx = [] ∨ bC5w.trainIdx.length < bC5w.periodNum)
    ∧ (appendExperience bC5w (fun _ _ _ => 0) 1 (fun _ _ => 0)).isOk = false
    ∧ (appendExperience bC5w (fun _ _ _ => 0) 1 (fun _ _ => 0)).state.pvmRows
        = (appendExperience bC5w (fun _ _ _ => 0) 1 (fun _ _ => 0)).state.periodNum
    ∧ ((appendExperience bC5w (fun _ _ _ => 0) 1 (fun _ _ => 0)).state.trainIdx = []
        ∨ (appendExperience bC5w (fun _ _ _ => 0) 1 (fun _ _ => 0)).state.trainIdx.length
            < (appendExperience bC5w (fun _ _ _ => 0) 1 (fun _ _ => 0)).state.periodNum) :=
  pvm_invariant_preserved 1 1 4 2 1 (fun _ _ _ => 1) 0 0 (1/10) true false bC5w
    (fun _ _ _ => 0) 1 (fun _ _ => 0) rfl (Or.inr (by rw [bC5w_train]; decide))
